import Mathlib

/-!
Verification of the tier-transition core of the morocco-public-data-platform
repository: the encoding normalizer (`mpdp/encoding.py`), the tabular
extractor (`mpdp/parsers/tourism_guides.py`), the version selector
(`mpdp/s3.py` and the script-local copies), and the zero-row safety gates of
the bronze-to-silver and silver-to-postgres transitions.

Python strings are modelled as lists of Unicode code points (`List Nat`);
byte strings as lists of byte values (`List Nat`).  Fallible operations
return `Option` or `Except String` carrying the source's error message.
-/

/-- Code points of a Lean string literal, used to write concrete Python
string values. -/
def codes (s : String) : List Nat := s.data.map Char.toNat

/-- The code points Python's str.strip() and str.isspace() treat as
whitespace (CPython Py_UNICODE_ISSPACE), which is also the set matched by
the regex class \s in Unicode mode. -/
def isPySpace (c : Nat) : Bool :=
  (9 ≤ c && c ≤ 13) || (28 ≤ c && c ≤ 32) || c = 133 || c = 160 ||
  c = 5760 || (8192 ≤ c && c ≤ 8202) || c = 8232 || c = 8233 ||
  c = 8239 || c = 8287 || c = 12288

/-- The code points with the Unicode White_Space property, the set stripped
by polars' Series.str.strip_chars() with no argument (Rust
char::is_whitespace). -/
def isRustSpace (c : Nat) : Bool :=
  (9 ≤ c && c ≤ 13) || c = 32 || c = 133 || c = 160 ||
  c = 5760 || (8192 ≤ c && c ≤ 8202) || c = 8232 || c = 8233 ||
  c = 8239 || c = 8287 || c = 12288

/-- Drop leading characters satisfying p (left part of a strip). -/
def dropL (p : Nat → Bool) (l : List Nat) : List Nat := l.dropWhile p

/-- Drop trailing characters satisfying p (right part of a strip). -/
def dropR (p : Nat → Bool) (l : List Nat) : List Nat :=
  (l.reverse.dropWhile p).reverse

/-- Python str.strip(): remove leading and trailing whitespace. -/
def pyStrip (l : List Nat) : List Nat := dropR isPySpace (dropL isPySpace l)

/-- polars str.strip_chars() with no argument: remove leading and trailing
Unicode White_Space characters. -/
def strip_chars (l : List Nat) : List Nat := dropR isRustSpace (dropL isRustSpace l)

/-- Python s.replace(old, "") for a one-character old: delete every
occurrence of the character x. -/
def removeAll (x : Nat) : List Nat → List Nat
  | [] => []
  | c :: r => if c = x then removeAll x r else c :: removeAll x r

/-- Python s.replace(old, "") for a two-character old [x, y]: scan left to
right, deleting each non-overlapping occurrence of the pair. -/
def removePair (x y : Nat) : List Nat → List Nat
  | [] => []
  | [c] => [c]
  | a :: b :: r =>
    if a = x && b = y then removePair x y r
    else a :: removePair x y (b :: r)

/-- mpdp/encoding.py clean_bom: strip the BOM code point U+FEFF, the
corrupted BOM glyph pair "ÿþ" (U+00FF U+00FE), then surrounding
whitespace. -/
def clean_bom (s : List Nat) : List Nat :=
  pyStrip (removePair 255 254 (removeAll 65279 s))

/-- Python string comparison: lexicographic order on code points, a proper
prefix being smaller. -/
def lexLt : List Nat → List Nat → Bool
  | [], [] => false
  | [], _ :: _ => true
  | _ :: _, [] => false
  | a :: s, b :: t => if a < b then true else if b < a then false else lexLt s t

/-- Python substring containment (needle in haystack). -/
def isSubstr (needle : List Nat) : List Nat → Bool
  | [] => needle.isEmpty
  | c :: rest => needle.isPrefixOf (c :: rest) || isSubstr needle rest

-- Basic facts about the lexicographic order.

theorem lexLt_irrefl (s : List Nat) : lexLt s s = false := by
  induction s with
  | nil => rfl
  | cons a t ih => simp [lexLt, ih]

theorem lexLt_trans {a b c : List Nat} (h1 : lexLt a b = true)
    (h2 : lexLt b c = true) : lexLt a c = true := by
  induction a generalizing b c with
  | nil =>
    cases b with
    | nil => simp [lexLt] at h1
    | cons y bs =>
      cases c with
      | nil => simp [lexLt] at h2
      | cons z cs => simp [lexLt]
  | cons x as ih =>
    cases b with
    | nil => simp [lexLt] at h1
    | cons y bs =>
      cases c with
      | nil => simp [lexLt] at h2
      | cons z cs =>
        simp only [lexLt] at h1 h2 ⊢
        rcases Nat.lt_trichotomy x y with hxy | hxy | hxy
        · rcases Nat.lt_trichotomy y z with hyz | hyz | hyz
          · simp [Nat.lt_trans hxy hyz]
          · subst hyz; simp [hxy]
          · simp [Nat.lt_asymm hyz, hyz] at h2
        · subst hxy
          simp [Nat.lt_irrefl] at h1
          rcases Nat.lt_trichotomy x z with hxz | hxz | hxz
          · simp [hxz]
          · subst hxz
            simp [Nat.lt_irrefl] at h2 ⊢
            exact ih h1 h2
          · simp [Nat.lt_asymm hxz, hxz] at h2
        · simp [Nat.lt_asymm hxy, hxy] at h1

theorem lexLt_eq_of_not_lt {s t : List Nat} (h1 : lexLt s t = false)
    (h2 : lexLt t s = false) : s = t := by
  induction s generalizing t with
  | nil =>
    cases t with
    | nil => rfl
    | cons y ts => simp [lexLt] at h1
  | cons x ss ih =>
    cases t with
    | nil => simp [lexLt] at h2
    | cons y ts =>
      simp only [lexLt] at h1 h2
      rcases Nat.lt_trichotomy x y with hxy | hxy | hxy
      · simp [hxy] at h1
      · subst hxy
        simp [Nat.lt_irrefl] at h1 h2
        rw [ih h1 h2]
      · simp [hxy] at h2

theorem lexLt_append_left (p : List Nat) {s t : List Nat} :
    lexLt (p ++ s) (p ++ t) = lexLt s t := by
  induction p with
  | nil => rfl
  | cons c p' ih => simp [lexLt, ih]

theorem lexLt_append_right {s t : List Nat} (u v : List Nat)
    (hlen : s.length = t.length) (huv : u = v) :
    lexLt (s ++ u) (t ++ v) = lexLt s t := by
  subst huv
  induction s generalizing t with
  | nil =>
    cases t with
    | nil => simp [lexLt_irrefl, lexLt]
    | cons y ts => simp at hlen
  | cons x ss ih =>
    cases t with
    | nil => simp at hlen
    | cons y ts =>
      simp only [List.length_cons, Nat.succ.injEq] at hlen
      rcases Nat.lt_trichotomy x y with h | h | h
      · simp [lexLt, h]
      · subst h
        simp only [List.cons_append, lexLt, Nat.lt_irrefl, if_false]
        exact ih hlen
      · simp [lexLt, Nat.lt_asymm h, h]

-- ## Encoding Normalizer (mpdp/encoding.py)

/-- Pair up bytes into 16-bit units, little- or big-endian; fails on an odd
byte count (CPython "truncated data"). -/
def bytesToUnits (le : Bool) : List Nat → Option (List Nat)
  | [] => some []
  | [_] => none
  | a :: b :: rest =>
    (bytesToUnits le rest).map
      (fun us => (if le then a + 256 * b else 256 * a + b) :: us)

/-- Combine UTF-16 code units into code points, pairing surrogates; fails on
a lone or misordered surrogate. -/
def combineUnits : List Nat → Option (List Nat)
  | [] => some []
  | u :: rest =>
    if 55296 ≤ u && u < 56320 then
      match rest with
      | [] => none
      | v :: rest2 =>
        if 56320 ≤ v && v < 57344 then
          (combineUnits rest2).map
            (fun t => (65536 + (u - 55296) * 1024 + (v - 56320)) :: t)
        else none
    else if 56320 ≤ u && u < 57344 then none
    else (combineUnits rest).map (fun t => u :: t)

/-- Strict UTF-16 decoding of a byte sequence with a fixed byte order. -/
def decodeUtf16Raw (le : Bool) (b : List Nat) : Option (List Nat) :=
  (bytesToUnits le b).bind combineUnits

/-- Python codec "utf-16": honour a leading BOM; with no BOM use the native
byte order, little-endian on the platforms this pipeline runs on. -/
def decodeUtf16 : List Nat → Option (List Nat)
  | 255 :: 254 :: rest => decodeUtf16Raw true rest
  | 254 :: 255 :: rest => decodeUtf16Raw false rest
  | b => decodeUtf16Raw true b

/-- Python codec "utf-16le": fixed little-endian, no BOM handling. -/
def decodeUtf16le (b : List Nat) : Option (List Nat) := decodeUtf16Raw true b

/-- A UTF-8 continuation byte. -/
def contByte (c : Nat) : Bool := 128 ≤ c && c < 192

/-- Strict UTF-8 decoding (RFC 3629: overlong forms, surrogates and
code points above U+10FFFF rejected), as CPython's strict "utf-8". -/
def decodeUtf8 : List Nat → Option (List Nat)
  | [] => some []
  | c :: rest =>
    if c < 128 then (decodeUtf8 rest).map (fun t => c :: t)
    else if 194 ≤ c && c ≤ 223 then
      match rest with
      | [] => none
      | c2 :: rest2 =>
        if contByte c2 then
          (decodeUtf8 rest2).map (fun t => ((c - 192) * 64 + (c2 - 128)) :: t)
        else none
    else if 224 ≤ c && c ≤ 239 then
      match rest with
      | c2 :: c3 :: rest3 =>
        if (if c = 224 then 160 ≤ c2 && c2 < 192
            else if c = 237 then 128 ≤ c2 && c2 < 160
            else contByte c2) && contByte c3 then
          (decodeUtf8 rest3).map
            (fun t => ((c - 224) * 4096 + (c2 - 128) * 64 + (c3 - 128)) :: t)
        else none
      | _ => none
    else if 240 ≤ c && c ≤ 244 then
      match rest with
      | c2 :: c3 :: c4 :: rest4 =>
        if (if c = 240 then 144 ≤ c2 && c2 < 192
            else if c = 244 then 128 ≤ c2 && c2 < 144
            else contByte c2) && contByte c3 && contByte c4 then
          (decodeUtf8 rest4).map
            (fun t => ((c - 240) * 262144 + (c2 - 128) * 4096 +
                       (c3 - 128) * 64 + (c4 - 128)) :: t)
        else none
      | _ => none
    else none

/-- Python codec "utf-8-sig": drop a leading UTF-8 BOM, then strict UTF-8. -/
def decodeUtf8sig : List Nat → Option (List Nat)
  | 239 :: 187 :: 191 :: rest => decodeUtf8 rest
  | b => decodeUtf8 b

/-- Python codec "latin1" (strict): each byte maps to the code point of the
same value; it succeeds on every byte sequence. -/
def decodeLatin1 (b : List Nat) : Option (List Nat) := some b

/-- Python b.decode("latin1", errors="replace"): latin1 has no invalid
sequences, so the lossy decode coincides with the strict one. -/
def decodeLatin1Replace (b : List Nat) : List Nat := b

/-- mpdp/encoding.py decode_bytes_safely: the loop over
("utf-16", "utf-16le", "utf-8-sig", "latin1") returning the first decode
that does not raise, followed by the lossy latin1 fallback. -/
def decode_bytes_safely (b : List Nat) : List Nat :=
  match decodeUtf16 b with
  | some s => s
  | none =>
    match decodeUtf16le b with
    | some s => s
    | none =>
      match decodeUtf8sig b with
      | some s => s
      | none =>
        match decodeLatin1 b with
        | some s => s
        | none => decodeLatin1Replace b

/-- First decoder of a list that succeeds on the input, the spec's
description of the priority chain. -/
def firstSuccess (fs : List (List Nat → Option (List Nat))) (b : List Nat) :
    Option (List Nat) :=
  match fs with
  | [] => none
  | f :: rest =>
    match f b with
    | some s => some s
    | none => firstSuccess rest b

/-- The spec's decoder priority order. -/
def decoderChain : List (List Nat → Option (List Nat)) :=
  [decodeUtf16, decodeUtf16le, decodeUtf8sig, decodeLatin1]

-- ## Tabular Extractor (mpdp/parsers/tourism_guides.py)

/-- The line boundary characters recognised by Python str.splitlines. -/
def isLineBreak (c : Nat) : Bool :=
  c = 10 || c = 11 || c = 12 || c = 13 || c = 28 || c = 29 || c = 30 ||
  c = 133 || c = 8232 || c = 8233

/-- Worker for splitlines: cur is the current line, reversed; a CR
immediately followed by LF counts as a single boundary. -/
def splitlinesGo (cur : List Nat) : List Nat → List (List Nat)
  | [] => if cur.isEmpty then [] else [cur.reverse]
  | 13 :: 10 :: rest => cur.reverse :: splitlinesGo [] rest
  | c :: rest =>
    if isLineBreak c then cur.reverse :: splitlinesGo [] rest
    else splitlinesGo (c :: cur) rest

/-- Python str.splitlines(). -/
def pySplitlines (s : List Nat) : List (List Nat) := splitlinesGo [] s

/-- Python ln.rstrip(chr(10)): remove trailing LF characters only. -/
def rstripLF (l : List Nat) : List Nat :=
  (l.reverse.dropWhile (fun c => c = 10)).reverse

/-- The line list the parser works on:
lines = [ln.rstrip(chr(10)) for ln in text.splitlines() if ln.strip()]. -/
def pyLines (text : List Nat) : List (List Nat) :=
  ((pySplitlines text).filter (fun ln => !(pyStrip ln).isEmpty)).map rstripLF

/-- Python ln.split(sep) for a one-character separator: split at every
occurrence, keeping empty fragments. -/
def splitOn (sep : Nat) : List Nat → List (List Nat)
  | [] => [[]]
  | c :: rest =>
    if c = sep then [] :: splitOn sep rest
    else
      match splitOn sep rest with
      | [] => [[c]]
      | p :: ps => (c :: p) :: ps

/-- Worker for re.split on runs of two or more whitespace characters: a
single whitespace character stays inside the current fragment; two adjacent
ones start a separator that swallows the whole run. -/
def ws2Aux (skip : Bool) (cur : List Nat) : List Nat → List (List Nat)
  | [] => if skip then [[]] else [cur.reverse]
  | a :: rest =>
    if skip then
      if isPySpace a then ws2Aux true cur rest
      else ws2Aux false [a] rest
    else if isPySpace a then
      match rest with
      | [] => [(a :: cur).reverse]
      | b :: rest2 =>
        if isPySpace b then cur.reverse :: ws2Aux true [] rest2
        else ws2Aux false (b :: a :: cur) rest2
    else ws2Aux false (a :: cur) rest

/-- Python re.split of the pattern matching two-or-more consecutive
whitespace characters. -/
def splitWs2 (l : List Nat) : List (List Nat) := ws2Aux false [] l

/-- Python s.split() with no argument: split on runs of whitespace,
discarding empty fragments. -/
def pySplitWsGo (cur : List Nat) : List Nat → List (List Nat)
  | [] => if cur.isEmpty then [] else [cur.reverse]
  | c :: rest =>
    if isPySpace c then
      if cur.isEmpty then pySplitWsGo [] rest
      else cur.reverse :: pySplitWsGo [] rest
    else pySplitWsGo (c :: cur) rest

/-- Python s.split() with no argument. -/
def pySplitWs (l : List Nat) : List (List Nat) := pySplitWsGo [] l

/-- Python " ".join(parts). -/
def joinSpace (parts : List (List Nat)) : List Nat := List.intercalate [32] parts

/-- One row of the five-column output schema
(nom, prenom, ville, categorie, langue_de_travail). -/
structure Row where
  nom : List Nat
  prenom : List Nat
  ville : List Nat
  categorie : List Nat
  langue : List Nat
deriving DecidableEq, Repr

/-- parts = [p.strip() for p in ln.split(chr(9)) if p.strip()]. -/
def tabParts (ln : List Nat) : List (List Nat) :=
  ((splitOn 9 ln).map pyStrip).filter (fun p => !p.isEmpty)

/-- The fallback parts = [p.strip() for p in re.split(ws-run, ln) if p.strip()]. -/
def wsParts (ln : List Nat) : List (List Nat) :=
  ((splitWs2 ln).map pyStrip).filter (fun p => !p.isEmpty)

/-- The fragment list a data line is parsed from: tab split first, the
whitespace-run split as fallback when fewer than 4 fragments result. -/
def partsOf (ln : List Nat) : List (List Nat) :=
  let cl := clean_bom ln
  let parts := tabParts cl
  if parts.length < 4 then wsParts cl else parts

/-- The body of the parser loop for one data line: fewer than 4 fragments
skips the line; 5 or more map positionally; exactly 4 split the first
fragment into surname and given name on whitespace. -/
def parseLine (ln : List Nat) : Option Row :=
  let parts := partsOf ln
  if parts.length < 4 then none
  else if 5 ≤ parts.length then
    some ⟨parts.getD 0 [], parts.getD 1 [], parts.getD 2 [],
          parts.getD 3 [], parts.getD 4 []⟩
  else
    let np := pySplitWs (parts.getD 0 [])
    some ⟨np.headD [],
          if 1 < np.length then joinSpace np.tail else [],
          parts.getD 1 [], parts.getD 2 [], parts.getD 3 []⟩

/-- The final with_columns pass: cast to text (identity here) and
str.strip_chars() on every column. -/
def stripRow (r : Row) : Row :=
  ⟨strip_chars r.nom, strip_chars r.prenom, strip_chars r.ville,
   strip_chars r.categorie, strip_chars r.langue⟩

/-- mpdp/parsers/tourism_guides.py parse: drop blank lines, require at least
a header and one more line, discard the header, extract rows line by line,
then trim every column. -/
def parse (text : List Nat) : Except String (List Row) :=
  let lines := pyLines text
  if lines.length < 2 then Except.error ("Not enough lines to parse file.")
  else Except.ok (((lines.drop 1).filterMap parseLine).map stripRow)

-- ## Version Selector (mpdp/s3.py and script-local copies)

/-- Python max() over a nonempty list of strings: the first
lexicographically maximal element. -/
def lexMax (c : List Nat) (cs : List (List Nat)) : List Nat :=
  cs.foldl (fun acc x => if lexLt acc x then x else acc) c

/-- mpdp/s3.py pick_latest_by_lex: keep keys containing must_contain and not
ending in any excluded suffix, and return the lexicographic maximum. -/
def pick_latest_by_lex (keys : List (List Nat)) (must_contain : List Nat)
    (exclude_suffixes : List (List Nat)) : Except String (List Nat) :=
  match keys.filter (fun k =>
      isSubstr must_contain k &&
      !(exclude_suffixes.any (fun s => s.isSuffixOf k))) with
  | [] => Except.error ("No matching objects found for latest pick.")
  | c :: cs => Except.ok (lexMax c cs)

/-- The "__" key-naming separator. -/
def sepUU : List Nat := [95, 95]

/-- The metadata sidecar suffix ".meta.txt". -/
def metaSuffix : List Nat := codes ".meta.txt"

/-- scripts/bronze_to_silver.py pick_latest_bronze: keys containing
"{dataset_id}__" and not ending in ".meta.txt", lexicographic maximum. -/
def pick_latest_bronze (keys : List (List Nat)) (dataset_id : List Nat) :
    Except String (List Nat) :=
  match keys.filter (fun k =>
      isSubstr (dataset_id ++ sepUU) k && !(metaSuffix.isSuffixOf k)) with
  | [] => Except.error ("No bronze data files found (only meta or none).")
  | c :: cs => Except.ok (lexMax c cs)

/-- Python str.lower() restricted to the ASCII letters appearing in object
keys. -/
def asciiLower (l : List Nat) : List Nat :=
  l.map (fun c => if 65 ≤ c && c ≤ 90 then c + 32 else c)

/-- The silver artifact suffix ".parquet". -/
def parquetSuffix : List Nat := codes ".parquet"

/-- scripts/load_silver_to_postgres.py pick_latest_silver: keys containing
"{dataset_id}__" whose lower-cased form ends in ".parquet", lexicographic
maximum. -/
def pick_latest_silver (keys : List (List Nat)) (dataset_id : List Nat) :
    Except String (List Nat) :=
  match keys.filter (fun k =>
      isSubstr (dataset_id ++ sepUU) k &&
      parquetSuffix.isSuffixOf (asciiLower k)) with
  | [] => Except.error ("No Silver parquet files found for this dataset.")
  | c :: cs => Except.ok (lexMax c cs)

-- ## Tier Transition Orchestrators (scripts/)

/-- The only dataset id with a registered parser. -/
def tourismId : List Nat := codes "tourism_guides_directory"

/-- scripts/bronze_to_silver.py main, after configuration: select the
latest bronze object, fetch its bytes, decode and parse, gate on zero rows,
and return the silver write (key and rows).  The write is the ok payload:
an error result performs no destination write. -/
def refineRun (bronzeKeys : List (List Nat)) (fetch : List Nat → List Nat)
    (dataset_id silverPre ts : List Nat) :
    Except String (List Nat × List Row) := do
  let k ← pick_latest_bronze bronzeKeys dataset_id
  let raw := fetch k
  if dataset_id = tourismId then
    let df ← parse (decode_bytes_safely raw)
    if df.length = 0 then
      Except.error ("Parsed 0 rows. Parsing rules likely wrong for this file version.")
    else
      Except.ok (silverPre ++ dataset_id ++ sepUU ++ ts ++ parquetSuffix, df)
  else
    Except.error ("No parser implemented for this dataset_id. Add a parser function.")

/-- scripts/load_silver_to_postgres.py main, after configuration: select
the latest silver object, fetch and deserialize it (deser models
polars.read_parquet, an external collaborator), gate on zero rows, and
return the staging replace (schema, table, rows).  The table replace is the
ok payload: an error result performs no destination write. -/
def loadRun (silverKeys : List (List Nat)) (fetch : List Nat → List Nat)
    (deser : List Nat → List Row) (dataset_id schema table : List Nat) :
    Except String (List Nat × List Nat × List Row) := do
  let k ← pick_latest_silver silverKeys dataset_id
  let df := deser (fetch k)
  if df.length = 0 then
    Except.error ("Silver has 0 rows; refusing to load.")
  else
    Except.ok (schema, table, df)

/-- scripts/ingest_bronze_to_minio.py raw object key:
"{bronze_prefix}{dataset_id}__{ts}.{fmt}". -/
def rawKey (pre dataset_id ts fmt : List Nat) : List Nat :=
  pre ++ dataset_id ++ sepUU ++ ts ++ [46] ++ fmt

/-- scripts/ingest_bronze_to_minio.py metadata sidecar key:
"{bronze_prefix}{dataset_id}__{ts}.meta.txt". -/
def metaKey (pre dataset_id ts : List Nat) : List Nat :=
  pre ++ dataset_id ++ sepUU ++ ts ++ metaSuffix

/-- A stamped key "{prefix}{id}__{stamp}.{ext}" as the spec writes it. -/
def stampKey (pre dataset_id stamp ext : List Nat) : List Nat :=
  pre ++ dataset_id ++ sepUU ++ stamp ++ [46] ++ ext

/-- The positional value of a fixed-width stamp: for equal-width stamps of
byte-sized code points this orders exactly as the string does, and for the
zero-padded UTC form YYYYMMDDTHHMMSSZ it orders chronologically. -/
def stampVal (s : List Nat) : Nat := s.foldl (fun acc c => acc * 256 + c) 0

-- ## Helper lemmas: dropWhile and strips

theorem dropWhile_head_false {p : Nat → Bool} {l t : List Nat} {c : Nat}
    (h : l.dropWhile p = c :: t) : p c = false := by
  induction l with
  | nil => simp at h
  | cons a l' ih =>
    rw [List.dropWhile_cons] at h
    by_cases hp : p a
    · simp [hp] at h; exact ih h
    · simp [hp] at h
      rw [← h.1]
      exact Bool.of_not_eq_true hp

theorem dropWhile_append_ex {p : Nat → Bool} {a : List Nat} (b : List Nat)
    (h : ∃ c ∈ a, p c = false) :
    (a ++ b).dropWhile p = a.dropWhile p ++ b := by
  induction a with
  | nil => simp at h
  | cons x a' ih =>
    by_cases hp : p x
    · have h' : ∃ c ∈ a', p c = false := by
        obtain ⟨c, hc, hcf⟩ := h
        rcases List.mem_cons.mp hc with rfl | hc'
        · rw [hp] at hcf; cases hcf
        · exact ⟨c, hc', hcf⟩
      simp [List.dropWhile_cons, hp, ih h']
    · simp [List.dropWhile_cons, hp]

theorem dropWhile_append_all {p : Nat → Bool} {a : List Nat} (b : List Nat)
    (h : ∀ c ∈ a, p c = true) :
    (a ++ b).dropWhile p = b.dropWhile p := by
  induction a with
  | nil => simp
  | cons x a' ih =>
    have hx := h x (by simp)
    simp only [List.cons_append, List.dropWhile_cons, hx, if_true]
    exact ih (fun c hc => h c (by simp [hc]))

theorem dropWhile_idem {p : Nat → Bool} (l : List Nat) :
    (l.dropWhile p).dropWhile p = l.dropWhile p := by
  cases h : l.dropWhile p with
  | nil => rfl
  | cons c t =>
    rw [List.dropWhile_cons, dropWhile_head_false h]
    simp

theorem mem_of_mem_dropWhile {p : Nat → Bool} {l : List Nat} {c : Nat}
    (h : c ∈ l.dropWhile p) : c ∈ l :=
  (List.dropWhile_suffix p).sublist.mem h

theorem mem_of_mem_dropR {p : Nat → Bool} {l : List Nat} {c : Nat}
    (h : c ∈ dropR p l) : c ∈ l := by
  unfold dropR at h
  rw [List.mem_reverse] at h
  exact List.mem_reverse.mp (mem_of_mem_dropWhile h)

theorem dropR_cons_of_ex {p : Nat → Bool} (c : Nat) {t : List Nat}
    (h : ∃ d ∈ t, p d = false) : dropR p (c :: t) = c :: dropR p t := by
  unfold dropR
  rw [List.reverse_cons, dropWhile_append_ex [c]
    (by obtain ⟨d, hd, hdf⟩ := h; exact ⟨d, List.mem_reverse.mpr hd, hdf⟩)]
  simp

theorem dropR_cons_all {p : Nat → Bool} (c : Nat) {t : List Nat}
    (h : ∀ d ∈ t, p d = true) :
    dropR p (c :: t) = if p c then [] else [c] := by
  unfold dropR
  rw [List.reverse_cons, dropWhile_append_all [c]
    (fun d hd => h d (List.mem_reverse.mp hd))]
  by_cases hc : p c <;> simp [List.dropWhile_cons, hc]

theorem dropR_append_ex {p : Nat → Bool} (a : List Nat) {b : List Nat}
    (h : ∃ c ∈ b, p c = false) : dropR p (a ++ b) = a ++ dropR p b := by
  unfold dropR
  rw [List.reverse_append, dropWhile_append_ex a.reverse
    (by obtain ⟨c, hc, hcf⟩ := h; exact ⟨c, List.mem_reverse.mpr hc, hcf⟩)]
  simp

theorem dropL_eq_nil_all {p : Nat → Bool} {l : List Nat}
    (h : ∀ c ∈ l, p c = true) : dropL p l = [] :=
  List.dropWhile_eq_nil_iff.mpr h

theorem dropR_eq_nil_all {p : Nat → Bool} {l : List Nat}
    (h : ∀ c ∈ l, p c = true) : dropR p l = [] := by
  unfold dropR
  rw [List.dropWhile_eq_nil_iff.mpr (fun c hc => h c (List.mem_reverse.mp hc))]
  rfl

theorem dropR_idem {p : Nat → Bool} (l : List Nat) :
    dropR p (dropR p l) = dropR p l := by
  unfold dropR
  rw [List.reverse_reverse, dropWhile_idem]

theorem exists_false_mem_dropWhile {p : Nat → Bool} {l : List Nat}
    (h : ∃ c ∈ l, p c = false) : ∃ c ∈ l.dropWhile p, p c = false := by
  induction l with
  | nil => simp at h
  | cons a t ih =>
    rw [List.dropWhile_cons]
    by_cases ha : p a
    · simp only [ha, if_true]
      apply ih
      obtain ⟨d, hd, hdf⟩ := h
      rcases List.mem_cons.mp hd with rfl | hd'
      · rw [ha] at hdf; cases hdf
      · exact ⟨d, hd', hdf⟩
    · rw [if_neg ha]
      exact ⟨a, List.mem_cons_self a t, Bool.of_not_eq_true ha⟩

theorem exists_false_mem_dropR {p : Nat → Bool} {l : List Nat}
    (h : ∃ c ∈ l, p c = false) : ∃ c ∈ dropR p l, p c = false := by
  unfold dropR
  obtain ⟨d, hd, hdf⟩ :=
    exists_false_mem_dropWhile (l := l.reverse)
      (by obtain ⟨c, hc, hcf⟩ := h; exact ⟨c, List.mem_reverse.mpr hc, hcf⟩)
  exact ⟨d, List.mem_reverse.mpr hd, hdf⟩

theorem dropL_dropR_comm {p : Nat → Bool} (l : List Nat) :
    dropL p (dropR p l) = dropR p (dropL p l) := by
  induction l with
  | nil => rfl
  | cons c t ih =>
    by_cases hall : ∀ d ∈ t, p d = true
    · by_cases hc : p c
      · have hall' : ∀ d ∈ c :: t, p d = true := by
          intro d hd
          rcases List.mem_cons.mp hd with rfl | hd'
          · exact hc
          · exact hall d hd'
        rw [dropL_eq_nil_all hall', dropR_eq_nil_all hall']
        rfl
      · have h2 : dropR p (c :: t) = [c] := by rw [dropR_cons_all c hall]; simp [hc]
        rw [h2]
        unfold dropL
        rw [List.dropWhile_cons, List.dropWhile_cons]
        simp only [hc, if_false, Bool.false_eq_true]
        rw [dropR_cons_all c hall]
        simp [hc, dropL_eq_nil_all hall]
    · push_neg at hall
      have hex : ∃ d ∈ t, p d = false := by
        obtain ⟨d, hd, hdf⟩ := hall
        exact ⟨d, hd, Bool.of_not_eq_true hdf⟩
      rw [dropR_cons_of_ex c hex]
      unfold dropL
      rw [List.dropWhile_cons, List.dropWhile_cons]
      by_cases hc : p c
      · simp only [hc, if_true]
        exact ih
      · simp only [hc, if_false, Bool.false_eq_true]
        rw [dropR_cons_of_ex c hex]

theorem pyStrip_eq_nil_iff (l : List Nat) :
    pyStrip l = [] ↔ ∀ c ∈ l, isPySpace c = true := by
  constructor
  · intro h
    by_contra hcf
    push_neg at hcf
    obtain ⟨c, hc, hcf'⟩ := hcf
    have hex : ∃ d ∈ l, isPySpace d = false := ⟨c, hc, Bool.of_not_eq_true hcf'⟩
    have h1 := exists_false_mem_dropWhile hex
    have h2 := exists_false_mem_dropR (p := isPySpace) (l := dropL isPySpace l) h1
    unfold pyStrip at h
    rw [h] at h2
    simp at h2
  · intro h
    unfold pyStrip
    rw [dropL_eq_nil_all h]
    rfl

theorem pyStrip_dropL (g : List Nat) : pyStrip (dropL isPySpace g) = pyStrip g := by
  unfold pyStrip dropL
  rw [dropWhile_idem]

theorem pyStrip_dropR (g : List Nat) : pyStrip (dropR isPySpace g) = pyStrip g := by
  unfold pyStrip
  rw [dropL_dropR_comm, dropR_idem]

theorem pyStrip_idem (l : List Nat) : pyStrip (pyStrip l) = pyStrip l := by
  have h1 : pyStrip (pyStrip l) = pyStrip (dropR isPySpace (dropL isPySpace l)) := rfl
  rw [h1, pyStrip_dropR, pyStrip_dropL]

theorem dropR_prefix {p : Nat → Bool} (l : List Nat) : dropR p l <+: l := by
  unfold dropR
  have h := List.dropWhile_suffix (l := l.reverse) p
  have h2 := List.reverse_prefix.mpr h
  rwa [List.reverse_reverse] at h2

theorem pyStrip_head_false {l t : List Nat} {c : Nat}
    (h : pyStrip l = c :: t) : isPySpace c = false := by
  unfold pyStrip at h
  obtain ⟨u, hu⟩ := dropR_prefix (p := isPySpace) (dropL isPySpace l)
  rw [h] at hu
  exact dropWhile_head_false
    (show List.dropWhile isPySpace l = c :: (t ++ u) from hu.symm)

theorem pyStrip_revhead_false {l t : List Nat} {c : Nat}
    (h : (pyStrip l).reverse = c :: t) : isPySpace c = false := by
  unfold pyStrip dropR at h
  rw [List.reverse_reverse] at h
  exact dropWhile_head_false h

theorem rust_imp_py {c : Nat} (h : isRustSpace c = true) : isPySpace c = true := by
  simp only [isRustSpace, isPySpace, Bool.or_eq_true, Bool.and_eq_true,
    decide_eq_true_eq] at h ⊢
  omega

theorem not_rust_of_not_py {c : Nat} (h : isPySpace c = false) :
    isRustSpace c = false := by
  cases hr : isRustSpace c with
  | false => rfl
  | true => rw [rust_imp_py hr] at h; cases h

theorem strip_chars_eq_self {l : List Nat}
    (hh : ∀ c t, l = c :: t → isRustSpace c = false)
    (hr : ∀ c t, l.reverse = c :: t → isRustSpace c = false) :
    strip_chars l = l := by
  have h1 : dropL isRustSpace l = l := by
    cases hl : l with
    | nil => rfl
    | cons c t =>
      unfold dropL
      rw [List.dropWhile_cons, hh c t hl]
      simp
  have h2 : dropR isRustSpace l = l := by
    unfold dropR
    cases hrev : l.reverse with
    | nil =>
      have hln : l = [] := by simpa using congrArg List.reverse hrev
      rw [hln]
      rfl
    | cons d u =>
      rw [List.dropWhile_cons, hr d u hrev]
      simp only [if_false, Bool.false_eq_true]
      rw [← hrev]
      exact List.reverse_reverse l
  unfold strip_chars
  rw [h1, h2]

theorem strip_chars_pyStrip (g : List Nat) :
    strip_chars (pyStrip g) = pyStrip g := by
  apply strip_chars_eq_self
  · intro c t h
    exact not_rust_of_not_py (pyStrip_head_false h)
  · intro c t h
    exact not_rust_of_not_py (pyStrip_revhead_false h)

-- ## Helper lemmas: character removal and substring containment

theorem mem_removeAll {x c : Nat} {s : List Nat} (h : c ∈ removeAll x s) :
    c ∈ s := by
  induction s with
  | nil => simpa [removeAll] using h
  | cons a r ih =>
    rw [removeAll] at h
    by_cases ha : a = x
    · simp only [ha, if_true] at h
      exact List.mem_cons_of_mem a (ih (by simpa [ha] using h))
    · simp only [ha, if_false] at h
      rcases List.mem_cons.mp h with rfl | h'
      · exact List.mem_cons_self c r
      · exact List.mem_cons_of_mem a (ih h')

theorem not_mem_removeAll (x : Nat) (s : List Nat) : x ∉ removeAll x s := by
  induction s with
  | nil => simp [removeAll]
  | cons a r ih =>
    rw [removeAll]
    by_cases ha : a = x
    · simpa [ha] using ih
    · simp only [ha, if_false]
      intro h
      rcases List.mem_cons.mp h with h' | h'
      · exact ha h'.symm
      · exact ih h'

theorem removeAll_eq_self {x : Nat} {s : List Nat} (h : x ∉ s) :
    removeAll x s = s := by
  induction s with
  | nil => rfl
  | cons a r ih =>
    rw [removeAll]
    have ha : a ≠ x := fun he => h (he ▸ List.mem_cons_self a r)
    rw [if_neg ha, ih (fun hm => h (List.mem_cons_of_mem a hm))]

theorem mem_removePair {x y c : Nat} {s : List Nat}
    (h : c ∈ removePair x y s) : c ∈ s := by
  induction s using removePair.induct x y with
  | case1 => simpa [removePair] using h
  | case2 d => simpa [removePair] using h
  | case3 a b r hab ih =>
    rw [removePair, if_pos hab] at h
    exact List.mem_cons_of_mem a (List.mem_cons_of_mem b (ih h))
  | case4 a b r hab ih =>
    rw [removePair, if_neg hab] at h
    rcases List.mem_cons.mp h with rfl | h'
    · exact List.mem_cons_self c _
    · exact List.mem_cons_of_mem a (ih h')

theorem isSubstr_nil (hay : List Nat) : isSubstr [] hay = true := by
  induction hay with
  | nil => rfl
  | cons c rest ih => simp [isSubstr, List.isPrefixOf]

theorem removePair_eq_self {x y : Nat} {s : List Nat}
    (h : isSubstr [x, y] s = false) : removePair x y s = s := by
  induction s using removePair.induct x y with
  | case1 => rfl
  | case2 d => rfl
  | case3 a b r hab ih =>
    exfalso
    rw [isSubstr] at h
    simp only [Bool.and_eq_true, decide_eq_true_eq] at hab
    obtain ⟨rfl, rfl⟩ := hab
    simp [List.isPrefixOf] at h
  | case4 a b r hab ih =>
    rw [removePair, if_neg hab]
    rw [isSubstr, Bool.or_eq_false_iff] at h
    rw [ih h.2]

theorem isSubstr_of_infix {m a b : List Nat} :
    isSubstr m (a ++ (m ++ b)) = true := by
  induction a with
  | nil =>
    cases m with
    | nil => exact isSubstr_nil _
    | cons x m' =>
      simp only [List.nil_append, List.cons_append, isSubstr, Bool.or_eq_true]
      left
      exact List.isPrefixOf_iff_prefix.mpr (by exact ⟨b, by simp⟩)
  | cons c a' ih =>
    simp only [List.cons_append, isSubstr, Bool.or_eq_true]
    right
    exact ih

theorem pair_not_substr_append {x y c : Nat} {a b : List Nat}
    (hcx : c ≠ x) (hcy : c ≠ y)
    (ha : isSubstr [x, y] a = false) (hb : isSubstr [x, y] b = false) :
    isSubstr [x, y] (a ++ c :: b) = false := by
  induction a with
  | nil =>
    simp only [List.nil_append, isSubstr, Bool.or_eq_false_iff]
    refine ⟨?_, hb⟩
    have hxc : (x == c) = false := beq_eq_false_iff_ne.mpr (Ne.symm hcx)
    simp [List.isPrefixOf, hxc]
  | cons d a' ih =>
    rw [isSubstr, Bool.or_eq_false_iff] at ha
    have ha2 := ha.2
    simp only [List.cons_append, isSubstr, Bool.or_eq_false_iff]
    refine ⟨?_, ih ha2⟩
    cases a' with
    | nil =>
      have hyc : (y == c) = false := beq_eq_false_iff_ne.mpr (Ne.symm hcy)
      simp [List.isPrefixOf, hyc]
    | cons e a'' =>
      have h1 := ha.1
      simpa [List.isPrefixOf] using h1

theorem isSuffixOf_append_self (a s : List Nat) :
    s.isSuffixOf (a ++ s) = true :=
  List.isSuffixOf_iff_suffix.mpr (List.suffix_append a s)

-- ## Helper lemmas: Python max and stamp values

theorem lexLt_tricho (a b : List Nat) :
    lexLt a b = true ∨ a = b ∨ lexLt b a = true := by
  cases h1 : lexLt a b with
  | true => exact Or.inl rfl
  | false =>
    cases h2 : lexLt b a with
    | true => exact Or.inr (Or.inr rfl)
    | false => exact Or.inr (Or.inl (lexLt_eq_of_not_lt h1 h2))

theorem lexMax_spec (c : List Nat) (cs : List (List Nat)) :
    lexMax c cs ∈ c :: cs ∧ ∀ x ∈ c :: cs, lexLt (lexMax c cs) x = false := by
  induction cs generalizing c with
  | nil =>
    refine ⟨List.mem_cons_self c [], ?_⟩
    intro x hx
    rcases List.mem_cons.mp hx with rfl | hx'
    · exact lexLt_irrefl x
    · simp at hx'
  | cons d cs' ih =>
    have hfold : lexMax c (d :: cs') = lexMax (if lexLt c d then d else c) cs' := rfl
    obtain ⟨ihm, ihmax⟩ := ih (if lexLt c d then d else c)
    rw [hfold]
    constructor
    · rcases List.mem_cons.mp ihm with he | hm
      · by_cases h : lexLt c d = true
        · rw [he]
          simp only [h, if_true]
          exact List.mem_cons_of_mem c (List.mem_cons_self d cs')
        · rw [he]
          simp only [Bool.not_eq_true] at h
          simp only [h, Bool.false_eq_true, if_false]
          exact List.mem_cons_self c _
      · exact List.mem_cons_of_mem c (List.mem_cons_of_mem d hm)
    · intro x hx
      have hhead := ihmax (if lexLt c d then d else c) (List.mem_cons_self _ _)
      rcases List.mem_cons.mp hx with he | hx'
      · rw [he]
        by_cases h : lexLt c d = true
        · simp only [h, if_true] at hhead ⊢
          by_contra hlt
          simp only [Bool.not_eq_false] at hlt
          have h2 := lexLt_trans hlt h
          rw [h2] at hhead
          cases hhead
        · simp only [Bool.not_eq_true] at h
          simp only [h, Bool.false_eq_true, if_false] at hhead ⊢
          exact hhead
      · rcases List.mem_cons.mp hx' with he | hx''
        · rw [he]
          by_cases h : lexLt c d = true
          · simp only [h, if_true] at hhead ⊢
            exact hhead
          · simp only [Bool.not_eq_true] at h
            simp only [h, Bool.false_eq_true, if_false] at hhead ⊢
            by_contra hlt
            simp only [Bool.not_eq_false] at hlt
            rcases lexLt_tricho c (lexMax c cs') with h1 | h1 | h1
            · have h2 := lexLt_trans h1 hlt
              rw [h2] at h
              cases h
            · rw [← h1] at hlt
              rw [hlt] at h
              cases h
            · rw [h1] at hhead
              cases hhead
        · exact ihmax x (List.mem_cons_of_mem _ hx'')

theorem stampVal_foldl (acc : Nat) (l : List Nat) :
    l.foldl (fun a c => a * 256 + c) acc = acc * 256 ^ l.length + stampVal l := by
  induction l generalizing acc with
  | nil => simp [stampVal]
  | cons c t ih =>
    rw [List.foldl_cons, ih (acc * 256 + c)]
    have h2 : stampVal (c :: t) = (0 * 256 + c) * 256 ^ t.length + stampVal t := by
      have h0 : stampVal (c :: t) =
          List.foldl (fun a d => a * 256 + d) (0 * 256 + c) t := rfl
      rw [h0, ih (0 * 256 + c)]
    rw [h2, List.length_cons]
    ring

theorem stampVal_cons (c : Nat) (t : List Nat) :
    stampVal (c :: t) = c * 256 ^ t.length + stampVal t := by
  have h0 : stampVal (c :: t) =
      List.foldl (fun a d => a * 256 + d) (0 * 256 + c) t := rfl
  rw [h0, stampVal_foldl]
  simp

theorem stampVal_lt (l : List Nat) (h : ∀ c ∈ l, c < 256) :
    stampVal l < 256 ^ l.length := by
  induction l with
  | nil => simp [stampVal]
  | cons c t ih =>
    rw [stampVal_cons, List.length_cons]
    have h1 : stampVal t < 256 ^ t.length :=
      ih (fun d hd => h d (List.mem_cons_of_mem c hd))
    have h2 : c < 256 := h c (List.mem_cons_self c t)
    calc c * 256 ^ t.length + stampVal t
        < c * 256 ^ t.length + 256 ^ t.length := by omega
      _ = (c + 1) * 256 ^ t.length := by ring
      _ ≤ 256 * 256 ^ t.length := Nat.mul_le_mul_right _ (by omega)
      _ = 256 ^ (t.length + 1) := by ring

theorem lexLt_iff_stampVal {s t : List Nat} (hlen : s.length = t.length)
    (hs : ∀ c ∈ s, c < 256) (ht : ∀ c ∈ t, c < 256) :
    lexLt s t = true ↔ stampVal s < stampVal t := by
  induction s generalizing t with
  | nil =>
    cases t with
    | nil => simp [lexLt, stampVal]
    | cons y ts => simp at hlen
  | cons a s' ih =>
    cases t with
    | nil => simp at hlen
    | cons b t' =>
      simp only [List.length_cons, Nat.succ.injEq] at hlen
      have hb1 : stampVal s' < 256 ^ s'.length :=
        stampVal_lt s' (fun d hd => hs d (List.mem_cons_of_mem a hd))
      have hb2 : stampVal t' < 256 ^ t'.length :=
        stampVal_lt t' (fun d hd => ht d (List.mem_cons_of_mem b hd))
      rw [stampVal_cons, stampVal_cons, ← hlen]
      rcases Nat.lt_trichotomy a b with h | h | h
      · have hLx : lexLt (a :: s') (b :: t') = true := by simp [lexLt, h]
        rw [hLx]
        simp only [true_iff]
        calc a * 256 ^ s'.length + stampVal s'
            < a * 256 ^ s'.length + 256 ^ s'.length := by omega
          _ = (a + 1) * 256 ^ s'.length := by ring
          _ ≤ b * 256 ^ s'.length := Nat.mul_le_mul_right _ (by omega)
          _ ≤ b * 256 ^ s'.length + stampVal t' := by omega
      · subst h
        have hLx : lexLt (a :: s') (a :: t') = lexLt s' t' := by simp [lexLt]
        rw [hLx, ih hlen (fun d hd => hs d (List.mem_cons_of_mem a hd))
          (fun d hd => ht d (List.mem_cons_of_mem a hd))]
        omega
      · have hLx : lexLt (a :: s') (b :: t') = false := by
          simp [lexLt, Nat.lt_asymm h, h]
        rw [hLx]
        simp only [Bool.false_eq_true, false_iff, not_lt]
        rw [← hlen] at hb2
        calc b * 256 ^ s'.length + stampVal t'
            ≤ b * 256 ^ s'.length + 256 ^ s'.length := by omega
          _ = (b + 1) * 256 ^ s'.length := by ring
          _ ≤ a * 256 ^ s'.length := Nat.mul_le_mul_right _ (by omega)
          _ ≤ a * 256 ^ s'.length + stampVal s' := by omega

-- ## Bridging lemmas for stamped keys

theorem stampKey_eq_append (pre dsid s ext : List Nat) :
    stampKey pre dsid s ext =
      (pre ++ (dsid ++ sepUU)) ++ (s ++ ([46] ++ ext)) := by
  unfold stampKey
  simp [List.append_assoc]

theorem isSubstr_stampKey (pre dsid s ext : List Nat) :
    isSubstr (dsid ++ sepUU) (stampKey pre dsid s ext) = true := by
  rw [stampKey_eq_append, List.append_assoc]
  exact isSubstr_of_infix

theorem lexLt_stampKey (pre dsid ext : List Nat) {s t : List Nat}
    (hlen : s.length = t.length) :
    lexLt (stampKey pre dsid s ext) (stampKey pre dsid t ext) = lexLt s t := by
  rw [stampKey_eq_append, stampKey_eq_append, lexLt_append_left,
    lexLt_append_right _ _ hlen rfl]

theorem stampKey_inj (pre dsid ext : List Nat) {s t : List Nat}
    (hlen : s.length = t.length)
    (h : stampKey pre dsid s ext = stampKey pre dsid t ext) : s = t := by
  rw [stampKey_eq_append, stampKey_eq_append] at h
  have h2 := List.append_cancel_left h
  exact (List.append_inj h2 hlen).1

theorem mem_of_mem_pyStrip {c : Nat} {l : List Nat} (h : c ∈ pyStrip l) :
    c ∈ l := by
  unfold pyStrip at h
  exact mem_of_mem_dropWhile (mem_of_mem_dropR h)

-- ## Claims about the Encoding Normalizer

/-- C3: for every byte sequence the Encoding Normalizer's decode step
returns a string (it is total by construction) whose value is the first
strict success among UTF-16 (BOM-aware), UTF-16 little-endian, UTF-8 with
BOM stripped, then Latin-1, tried in that fixed order, with the lossy
Latin-1 decode as the final always-succeeding fallback. -/
theorem C3_decode_priority_chain (b : List Nat) :
    decode_bytes_safely b =
      (firstSuccess decoderChain b).getD (decodeLatin1Replace b) := by
  unfold decode_bytes_safely
  cases h1 : decodeUtf16 b with
  | some s => simp [decoderChain, firstSuccess, h1]
  | none =>
    cases h2 : decodeUtf16le b with
    | some s => simp [decoderChain, firstSuccess, h1, h2]
    | none =>
      cases h3 : decodeUtf8sig b with
      | some s => simp [decoderChain, firstSuccess, h1, h2, h3]
      | none => simp [decoderChain, firstSuccess, h1, h2, h3, decodeLatin1]

/-- C9: strict Latin-1 decoding succeeds on every byte sequence, so the
four-encoding loop always returns and the lossy fallback line is
unreachable: the chain itself already produces the function's value. -/
theorem C9_latin1_total_fallback_dead (b : List Nat) :
    firstSuccess decoderChain b = some (decode_bytes_safely b) := by
  unfold decode_bytes_safely
  cases h1 : decodeUtf16 b with
  | some s => simp [decoderChain, firstSuccess, h1]
  | none =>
    cases h2 : decodeUtf16le b with
    | some s => simp [decoderChain, firstSuccess, h1, h2]
    | none =>
      cases h3 : decodeUtf8sig b with
      | some s => simp [decoderChain, firstSuccess, h1, h2, h3]
      | none => simp [decoderChain, firstSuccess, h1, h2, h3, decodeLatin1]

/-- C7 counterexample: on the bytes FF FF FE FE FF every strict decode
before Latin-1 fails, Latin-1 yields "ÿÿþþÿ", and removing the single
"ÿþ" occurrence juxtaposes a new "ÿþ" pair, so the cleaned output still
contains the corrupted BOM glyph pair. -/
theorem C7_counterexample :
    isSubstr [255, 254]
      (clean_bom (decode_bytes_safely [255, 255, 254, 254, 255])) = true := by
  rfl

/-- C7 amended: for every byte sequence the cleaned decode output contains
no U+FEFF code point and has no leading or trailing whitespace; the
glyph-pair removal, however, only removes the occurrences present in the
decoded text and deletion can juxtapose a fresh "ÿþ" pair, which remains. -/
theorem C7_amended_no_bom_trimmed (b : List Nat) :
    65279 ∉ clean_bom (decode_bytes_safely b) ∧
    pyStrip (clean_bom (decode_bytes_safely b)) =
      clean_bom (decode_bytes_safely b) := by
  constructor
  · intro hmem
    unfold clean_bom at hmem
    have h1 := mem_removePair (mem_of_mem_pyStrip hmem)
    exact not_mem_removeAll 65279 (decode_bytes_safely b) h1
  · exact pyStrip_idem _

-- ## Claim about the Version Selector

/-- C2: the Version Selector returns a member of the key set that contains
the required substring and ends in no excluded suffix and is
lexicographically maximal among all such members; it fails with the
"no matching objects" error when no key survives the filter; and over keys
of the stamped form {prefix}{id}__{stamp}.{ext} sharing prefix, id and
extension, with equal-width stamps of byte-sized code points, the key whose
stamp has the maximal positional value - the chronologically latest one for
the zero-padded UTC stamp format - is selected. -/
theorem C2_pick_latest_by_lex :
    (∀ (keys : List (List Nat)) (mc : List Nat) (ex : List (List Nat))
       (k : List Nat),
      pick_latest_by_lex keys mc ex = Except.ok k →
      k ∈ keys ∧ isSubstr mc k = true ∧
        (∀ e ∈ ex, e.isSuffixOf k = false) ∧
        ∀ c ∈ keys, isSubstr mc c = true →
          (∀ e ∈ ex, e.isSuffixOf c = false) → lexLt k c = false) ∧
    (∀ (keys : List (List Nat)) (mc : List Nat) (ex : List (List Nat)),
      (∀ k ∈ keys, isSubstr mc k = false ∨ ∃ e ∈ ex, e.isSuffixOf k = true) →
      pick_latest_by_lex keys mc ex =
        Except.error ("No matching objects found for latest pick.")) ∧
    (∀ (pre dsid ext : List Nat) (ex : List (List Nat))
       (stamps : List (List Nat)) (t : List Nat),
      t ∈ stamps →
      (∀ s ∈ stamps, s.length = t.length) →
      (∀ s ∈ stamps, ∀ c ∈ s, c < 256) →
      (∀ s ∈ stamps, stampVal s ≤ stampVal t) →
      (∀ s ∈ stamps, ∀ e ∈ ex,
        e.isSuffixOf (stampKey pre dsid s ext) = false) →
      pick_latest_by_lex (stamps.map (fun s => stampKey pre dsid s ext))
          (dsid ++ sepUU) ex = Except.ok (stampKey pre dsid t ext)) := by
  have main : ∀ (keys : List (List Nat)) (mc : List Nat)
      (ex : List (List Nat)) (k : List Nat),
      pick_latest_by_lex keys mc ex = Except.ok k →
      k ∈ keys ∧ isSubstr mc k = true ∧
        (∀ e ∈ ex, e.isSuffixOf k = false) ∧
        ∀ c ∈ keys, isSubstr mc c = true →
          (∀ e ∈ ex, e.isSuffixOf c = false) → lexLt k c = false := by
    intro keys mc ex k hok
    unfold pick_latest_by_lex at hok
    cases hf : keys.filter (fun k =>
        isSubstr mc k && !(ex.any (fun s => s.isSuffixOf k))) with
    | nil => rw [hf] at hok; cases hok
    | cons c0 cs =>
      rw [hf] at hok
      have hk : k = lexMax c0 cs := (Except.ok.inj hok).symm
      obtain ⟨hmem, hmax⟩ := lexMax_spec c0 cs
      rw [← hk] at hmem hmax
      rw [← hf] at hmem hmax
      have hkeys : k ∈ keys := List.mem_of_mem_filter hmem
      have hpred := List.of_mem_filter hmem
      simp only [Bool.and_eq_true, Bool.not_eq_true', List.any_eq_false,
        Bool.not_eq_true] at hpred
      refine ⟨hkeys, hpred.1, ?_, ?_⟩
      · intro e he
        exact hpred.2 e he
      · intro c hc hsub hsuf
        apply hmax
        apply List.mem_filter.mpr
        refine ⟨hc, ?_⟩
        simp only [Bool.and_eq_true, Bool.not_eq_true', List.any_eq_false,
          Bool.not_eq_true]
        exact ⟨hsub, hsuf⟩
  refine ⟨main, ?_, ?_⟩
  · intro keys mc ex h
    unfold pick_latest_by_lex
    have hnil : keys.filter (fun k =>
        isSubstr mc k && !(ex.any (fun s => s.isSuffixOf k))) = [] := by
      apply List.filter_eq_nil_iff.mpr
      intro k hk hcontra
      simp only [Bool.and_eq_true, Bool.not_eq_true'] at hcontra
      rcases h k hk with hs | ⟨e, he, hse⟩
      · rw [hs] at hcontra
        exact absurd hcontra.1 (by simp)
      · have hthis := List.any_eq_false.mp hcontra.2 e he
        exact hthis hse
    rw [hnil]
  · intro pre dsid ext ex stamps t ht hlen hbytes hmaxv hsuf
    cases hres : pick_latest_by_lex
        (stamps.map (fun s => stampKey pre dsid s ext)) (dsid ++ sepUU) ex with
    | error msg =>
      exfalso
      unfold pick_latest_by_lex at hres
      cases hf : (stamps.map (fun s => stampKey pre dsid s ext)).filter
          (fun k => isSubstr (dsid ++ sepUU) k &&
            !(ex.any (fun s => s.isSuffixOf k))) with
      | cons c0 cs => rw [hf] at hres; cases hres
      | nil =>
        have hmem : stampKey pre dsid t ext ∈
            stamps.map (fun s => stampKey pre dsid s ext) :=
          List.mem_map.mpr ⟨t, ht, rfl⟩
        have hdrop := List.filter_eq_nil_iff.mp hf _ hmem
        apply hdrop
        simp only [Bool.and_eq_true, Bool.not_eq_true', List.any_eq_false,
          Bool.not_eq_true]
        exact ⟨isSubstr_stampKey pre dsid t ext, fun e he => hsuf t ht e he⟩
    | ok k =>
      obtain ⟨hkeys, _, _, hmax⟩ := main _ _ _ _ hres
      obtain ⟨s0, hs0, hks0⟩ := List.mem_map.mp hkeys
      have hmt : stampKey pre dsid t ext ∈
          stamps.map (fun s => stampKey pre dsid s ext) :=
        List.mem_map.mpr ⟨t, ht, rfl⟩
      have h1 : lexLt k (stampKey pre dsid t ext) = false :=
        hmax _ hmt (isSubstr_stampKey pre dsid t ext)
          (fun e he => hsuf t ht e he)
      have h2 : lexLt (stampKey pre dsid t ext) k = false := by
        rw [← hks0, lexLt_stampKey pre dsid ext (hlen s0 hs0).symm]
        cases hlt : lexLt t s0 with
        | false => rfl
        | true =>
          exfalso
          have hv := (lexLt_iff_stampVal (hlen s0 hs0).symm
            (hbytes t ht) (hbytes s0 hs0)).mp hlt
          have h3 := hmaxv s0 hs0
          omega
      rw [lexLt_eq_of_not_lt h2 h1]

/-- C2 witness: concrete instantiations of the three parts of the selector
claim - a singleton key set, an all-filtered key set, and a two-stamp key
set where the later stamp wins. -/
theorem C2_pick_latest_by_lex_witness :
    ((codes "a__1.csv") ∈ [codes "a__1.csv"] ∧
      isSubstr (codes "a__") (codes "a__1.csv") = true ∧
      (∀ e ∈ ([] : List (List Nat)), e.isSuffixOf (codes "a__1.csv") = false) ∧
      ∀ c ∈ [codes "a__1.csv"], isSubstr (codes "a__") c = true →
        (∀ e ∈ ([] : List (List Nat)), e.isSuffixOf c = false) →
        lexLt (codes "a__1.csv") c = false) ∧
    pick_latest_by_lex [codes "b.txt"] (codes "a__") [] =
      Except.error ("No matching objects found for latest pick.") ∧
    pick_latest_by_lex
        ([[49], [50]].map (fun s => stampKey (codes "bronze/") (codes "ds") s (codes "csv")))
        (codes "ds" ++ sepUU) [] =
      Except.ok (stampKey (codes "bronze/") (codes "ds") [50] (codes "csv")) := by
  refine ⟨?_, ?_, ?_⟩
  · exact C2_pick_latest_by_lex.1 [codes "a__1.csv"] (codes "a__") [] _ (by rfl)
  · exact C2_pick_latest_by_lex.2.1 [codes "b.txt"] (codes "a__") []
      (by intro k hk; left; simp at hk; rw [hk]; rfl)
  · exact C2_pick_latest_by_lex.2.2 (codes "bronze/") (codes "ds") (codes "csv")
      [] [[49], [50]] [50] (by decide) (by decide) (by decide) (by decide)
      (by intro s hs e he; simp at he)

/-- C8: with the second ingest carrying a strictly later (hence different)
16-character stamp, the two sequential ingests produce distinct raw bronze
keys, and the Version Selector over all four produced keys (raw plus
metadata sidecar of each run), excluding the sidecar suffix, returns the
second run's raw key. -/
theorem C8_sequential_ingests (pre dsid fmt ts1 ts2 : List Nat)
    (hl1 : ts1.length = 16) (hl2 : ts2.length = 16)
    (hlt : lexLt ts1 ts2 = true)
    (hm1 : metaSuffix.isSuffixOf (rawKey pre dsid ts1 fmt) = false)
    (hm2 : metaSuffix.isSuffixOf (rawKey pre dsid ts2 fmt) = false) :
    rawKey pre dsid ts1 fmt ≠ rawKey pre dsid ts2 fmt ∧
    pick_latest_by_lex
      [rawKey pre dsid ts1 fmt, metaKey pre dsid ts1,
       rawKey pre dsid ts2 fmt, metaKey pre dsid ts2]
      (dsid ++ sepUU) [metaSuffix] = Except.ok (rawKey pre dsid ts2 fmt) := by
  have e1 : rawKey pre dsid ts1 fmt = stampKey pre dsid ts1 fmt := rfl
  have e2 : rawKey pre dsid ts2 fmt = stampKey pre dsid ts2 fmt := rfl
  have hlen12 : ts1.length = ts2.length := by rw [hl1, hl2]
  constructor
  · intro he
    rw [e1, e2] at he
    have heq := stampKey_inj pre dsid fmt hlen12 he
    rw [heq, lexLt_irrefl] at hlt
    cases hlt
  · have hs1 : isSubstr (dsid ++ sepUU) (rawKey pre dsid ts1 fmt) = true := by
      rw [e1]; exact isSubstr_stampKey pre dsid ts1 fmt
    have hs2 : isSubstr (dsid ++ sepUU) (rawKey pre dsid ts2 fmt) = true := by
      rw [e2]; exact isSubstr_stampKey pre dsid ts2 fmt
    have hmk1 : metaSuffix.isSuffixOf (metaKey pre dsid ts1) = true := by
      have hshape : metaKey pre dsid ts1 =
          (pre ++ dsid ++ sepUU ++ ts1) ++ metaSuffix := by
        simp [metaKey, List.append_assoc]
      rw [hshape]
      exact isSuffixOf_append_self _ _
    have hmk2 : metaSuffix.isSuffixOf (metaKey pre dsid ts2) = true := by
      have hshape : metaKey pre dsid ts2 =
          (pre ++ dsid ++ sepUU ++ ts2) ++ metaSuffix := by
        simp [metaKey, List.append_assoc]
      rw [hshape]
      exact isSuffixOf_append_self _ _
    have hlt12 : lexLt (rawKey pre dsid ts1 fmt) (rawKey pre dsid ts2 fmt) = true := by
      rw [e1, e2, lexLt_stampKey pre dsid fmt hlen12]
      exact hlt
    unfold pick_latest_by_lex
    simp only [List.filter_cons, List.filter_nil, List.any_cons, List.any_nil,
      hs1, hs2, hm1, hm2, hmk1, hmk2, Bool.or_false, Bool.not_false,
      Bool.not_true, Bool.and_true, Bool.and_false, Bool.false_eq_true,
      if_true, if_false]
    simp only [lexMax, List.foldl_cons, List.foldl_nil, hlt12, if_true]

/-- C8 witness: two concrete stamped ingests one day apart. -/
theorem C8_sequential_ingests_witness :
    rawKey (codes "bronze/") (codes "ds") (codes "20250101T000000Z") (codes "csv") ≠
      rawKey (codes "bronze/") (codes "ds") (codes "20250102T000000Z") (codes "csv") ∧
    pick_latest_by_lex
      [rawKey (codes "bronze/") (codes "ds") (codes "20250101T000000Z") (codes "csv"),
       metaKey (codes "bronze/") (codes "ds") (codes "20250101T000000Z"),
       rawKey (codes "bronze/") (codes "ds") (codes "20250102T000000Z") (codes "csv"),
       metaKey (codes "bronze/") (codes "ds") (codes "20250102T000000Z")]
      (codes "ds" ++ sepUU) [metaSuffix] =
      Except.ok (rawKey (codes "bronze/") (codes "ds")
        (codes "20250102T000000Z") (codes "csv")) :=
  C8_sequential_ingests (codes "bronze/") (codes "ds") (codes "csv")
    (codes "20250101T000000Z") (codes "20250102T000000Z")
    (by decide) (by decide) (by decide) (by decide) (by decide)

-- ## Helper lemmas: the extractor's fragment lists

theorem getD_mem_of_lt {α : Type} (l : List α) (i : Nat) (d : α)
    (h : i < l.length) : l.getD i d ∈ l := by
  rw [List.getD_eq_getElem l d h]
  exact List.getElem_mem h

theorem headD_mem_of_ne_nil {α : Type} {l : List α} (d : α) (h : l ≠ []) :
    l.headD d ∈ l := by
  cases l with
  | nil => exact absurd rfl h
  | cons a t => exact List.mem_cons_self a t

theorem partsOf_mem {ln e : List Nat} (h : e ∈ partsOf ln) :
    (∃ g, e = pyStrip g) ∧ e ≠ [] := by
  unfold partsOf at h
  by_cases hc : (tabParts (clean_bom ln)).length < 4
  · rw [if_pos hc] at h
    unfold wsParts at h
    have hmap := List.mem_of_mem_filter h
    have hkeep := List.of_mem_filter h
    obtain ⟨g, _, hg⟩ := List.mem_map.mp hmap
    refine ⟨⟨g, hg.symm⟩, ?_⟩
    simp only [Bool.not_eq_true'] at hkeep
    exact fun he => by rw [he] at hkeep; cases hkeep
  · rw [if_neg hc] at h
    unfold tabParts at h
    have hmap := List.mem_of_mem_filter h
    have hkeep := List.of_mem_filter h
    obtain ⟨g, _, hg⟩ := List.mem_map.mp hmap
    refine ⟨⟨g, hg.symm⟩, ?_⟩
    simp only [Bool.not_eq_true'] at hkeep
    exact fun he => by rw [he] at hkeep; cases hkeep

theorem pySplitWsGo_tokens {cur l : List Nat}
    (hcur : ∀ c ∈ cur, isPySpace c = false) :
    ∀ tok ∈ pySplitWsGo cur l, tok ≠ [] ∧ ∀ c ∈ tok, isPySpace c = false := by
  induction l generalizing cur with
  | nil =>
    intro tok htok
    unfold pySplitWsGo at htok
    by_cases hc : cur.isEmpty
    · rw [if_pos hc] at htok
      simp at htok
    · rw [if_neg hc] at htok
      rcases List.mem_cons.mp htok with rfl | hfalse
      · constructor
        · simp only [ne_eq, List.reverse_eq_nil_iff]
          exact fun he => hc (by rw [he]; rfl)
        · intro c hcmem
          exact hcur c (List.mem_reverse.mp hcmem)
      · simp at hfalse
  | cons a rest ih =>
    intro tok htok
    unfold pySplitWsGo at htok
    by_cases ha : isPySpace a
    · rw [if_pos ha] at htok
      by_cases hc : cur.isEmpty
      · rw [if_pos hc] at htok
        exact ih (by intro c hcm; simp at hcm) tok htok
      · rw [if_neg hc] at htok
        rcases List.mem_cons.mp htok with rfl | hrest
        · constructor
          · simp only [ne_eq, List.reverse_eq_nil_iff]
            exact fun he => hc (by rw [he]; rfl)
          · intro c hcmem
            exact hcur c (List.mem_reverse.mp hcmem)
        · exact ih (by intro c hcm; simp at hcm) tok hrest
    · rw [if_neg ha] at htok
      refine ih ?_ tok htok
      intro c hcm
      rcases List.mem_cons.mp hcm with rfl | hcm'
      · exact Bool.of_not_eq_true ha
      · exact hcur c hcm'

theorem pySplitWsGo_ne_nil {l cur : List Nat}
    (h : (∃ c ∈ l, isPySpace c = false) ∨ cur ≠ []) :
    pySplitWsGo cur l ≠ [] := by
  induction l generalizing cur with
  | nil =>
    have hcur : cur ≠ [] := by
      rcases h with ⟨c, hc, _⟩ | hc
      · simp at hc
      · exact hc
    unfold pySplitWsGo
    rw [if_neg (by simpa using hcur)]
    simp
  | cons a rest ih =>
    unfold pySplitWsGo
    by_cases ha : isPySpace a
    · rw [if_pos ha]
      by_cases hc : cur.isEmpty
      · rw [if_pos hc]
        apply ih
        left
        rcases h with ⟨c, hcm, hcf⟩ | hcne
        · rcases List.mem_cons.mp hcm with rfl | hcm'
          · rw [ha] at hcf; cases hcf
          · exact ⟨c, hcm', hcf⟩
        · exact absurd (by simpa using hc) hcne
      · rw [if_neg hc]
        simp
    · rw [if_neg ha]
      apply ih
      right
      simp

theorem token_strip_chars {tok : List Nat} (hne : tok ≠ [])
    (hns : ∀ c ∈ tok, isPySpace c = false) : strip_chars tok = tok := by
  apply strip_chars_eq_self
  · intro c t hct
    apply not_rust_of_not_py
    exact hns c (hct ▸ List.mem_cons_self c t)
  · intro c t hct
    apply not_rust_of_not_py
    apply hns c
    have : c ∈ tok.reverse := hct ▸ List.mem_cons_self c t
    exact List.mem_reverse.mp this

theorem parse_ok_inv {text : List Nat} {rows : List Row}
    (h : parse text = Except.ok rows) :
    rows = (((pyLines text).drop 1).filterMap parseLine).map stripRow ∧
    2 ≤ (pyLines text).length := by
  unfold parse at h
  by_cases hl : (pyLines text).length < 2
  · rw [if_pos hl] at h
    cases h
  · rw [if_neg hl] at h
    exact ⟨(Except.ok.inj h).symm, by omega⟩

theorem parseLine_core_fields {ln : List Nat} {r0 : Row}
    (h : parseLine ln = some r0) :
    (r0.nom ≠ [] ∧ strip_chars r0.nom = r0.nom) ∧
    (r0.ville ≠ [] ∧ strip_chars r0.ville = r0.ville) ∧
    (r0.categorie ≠ [] ∧ strip_chars r0.categorie = r0.categorie) ∧
    (r0.langue ≠ [] ∧ strip_chars r0.langue = r0.langue) := by
  unfold parseLine at h
  by_cases h4 : (partsOf ln).length < 4
  · rw [if_pos h4] at h
    cases h
  · rw [if_neg h4] at h
    have hfield : ∀ i, i < (partsOf ln).length →
        (partsOf ln).getD i [] ≠ [] ∧
        strip_chars ((partsOf ln).getD i []) = (partsOf ln).getD i [] := by
      intro i hi
      have hmem := getD_mem_of_lt (partsOf ln) i [] hi
      obtain ⟨⟨g, hg⟩, hne⟩ := partsOf_mem hmem
      refine ⟨hne, ?_⟩
      rw [hg]
      exact strip_chars_pyStrip g
    by_cases h5 : 5 ≤ (partsOf ln).length
    · rw [if_pos h5] at h
      have hr0 := Option.some.inj h
      have hnom : r0.nom = (partsOf ln).getD 0 [] := by rw [← hr0]
      have hvil : r0.ville = (partsOf ln).getD 2 [] := by rw [← hr0]
      have hcat : r0.categorie = (partsOf ln).getD 3 [] := by rw [← hr0]
      have hlang : r0.langue = (partsOf ln).getD 4 [] := by rw [← hr0]
      rw [hnom, hvil, hcat, hlang]
      exact ⟨hfield 0 (by omega), hfield 2 (by omega), hfield 3 (by omega),
        hfield 4 (by omega)⟩
    · rw [if_neg h5] at h
      have hr0 := Option.some.inj h
      have hnom : r0.nom =
          (pySplitWs ((partsOf ln).getD 0 [])).headD [] := by rw [← hr0]
      have hvil : r0.ville = (partsOf ln).getD 1 [] := by rw [← hr0]
      have hcat : r0.categorie = (partsOf ln).getD 2 [] := by rw [← hr0]
      have hlang : r0.langue = (partsOf ln).getD 3 [] := by rw [← hr0]
      rw [hnom, hvil, hcat, hlang]
      refine ⟨?_, hfield 1 (by omega), hfield 2 (by omega), hfield 3 (by omega)⟩
      obtain ⟨h0ne, _⟩ := hfield 0 (by omega)
      have hmem0 := getD_mem_of_lt (partsOf ln) 0 [] (by omega)
      obtain ⟨⟨g, hg⟩, _⟩ := partsOf_mem hmem0
      have hhead : ∃ c ∈ (partsOf ln).getD 0 [], isPySpace c = false := by
        cases he : (partsOf ln).getD 0 [] with
        | nil => exact absurd he h0ne
        | cons c t =>
          refine ⟨c, List.mem_cons_self c t, ?_⟩
          rw [hg] at he
          exact pyStrip_head_false he
      have hnp : pySplitWs ((partsOf ln).getD 0 []) ≠ [] :=
        pySplitWsGo_ne_nil (Or.inl hhead)
      have htokmem := headD_mem_of_ne_nil [] hnp
      obtain ⟨htne, htns⟩ :=
        pySplitWsGo_tokens (by intro c hc; simp at hc) _ htokmem
      exact ⟨htne, token_strip_chars htne htns⟩

-- ## Claims about the Tabular Extractor

/-- C5: a data line whose fragment list is exactly 4 nonempty fragments has
its first fragment split on whitespace, the first token becoming the
surname, the space-joined remaining tokens the given name (empty when there
is a single token), the other three fragments mapping to city, category and
language; in particular the tab-separated line "Doe John TAB Paris TAB
Guide TAB French" yields the row (Doe, John, Paris, Guide, French). -/
theorem C5_four_fragment_fallback :
    (∀ (ln f1 f2 f3 f4 : List Nat),
      partsOf ln = [f1, f2, f3, f4] →
      parseLine ln = some
        ⟨(pySplitWs f1).headD [],
         if 1 < (pySplitWs f1).length then joinSpace (pySplitWs f1).tail else [],
         f2, f3, f4⟩) ∧
    parseLine (codes "Doe John\tParis\tGuide\tFrench") =
      some ⟨codes "Doe", codes "John", codes "Paris", codes "Guide",
            codes "French"⟩ := by
  constructor
  · intro ln f1 f2 f3 f4 h
    unfold parseLine
    rw [h]
    simp [List.getD]
  · rfl

/-- C5 witness: the general 4-fragment statement applied to the concrete
line "Doe John TAB Paris TAB Guide TAB French". -/
theorem C5_four_fragment_fallback_witness :
    parseLine (codes "Doe John\tParis\tGuide\tFrench") =
      some ⟨(pySplitWs (codes "Doe John")).headD [],
            if 1 < (pySplitWs (codes "Doe John")).length then
              joinSpace (pySplitWs (codes "Doe John")).tail else [],
            codes "Paris", codes "Guide", codes "French"⟩ :=
  C5_four_fragment_fallback.1 (codes "Doe John\tParis\tGuide\tFrench")
    (codes "Doe John") (codes "Paris") (codes "Guide") (codes "French")
    (by rfl)

/-- C6: a data line producing fewer than 4 fragments under both the tab
split and the two-or-more-spaces fallback split is silently skipped, and a
text whose data lines all do so parses to a table with zero rows and no
error from the extractor. -/
theorem C6_malformed_lines_skipped :
    (∀ ln : List Nat,
      (tabParts (clean_bom ln)).length < 4 →
      (wsParts (clean_bom ln)).length < 4 →
      parseLine ln = none) ∧
    (∀ text : List Nat,
      2 ≤ (pyLines text).length →
      (∀ d ∈ (pyLines text).drop 1,
        (tabParts (clean_bom d)).length < 4 ∧
        (wsParts (clean_bom d)).length < 4) →
      parse text = Except.ok []) := by
  have hline : ∀ ln : List Nat,
      (tabParts (clean_bom ln)).length < 4 →
      (wsParts (clean_bom ln)).length < 4 → parseLine ln = none := by
    intro ln h1 h2
    unfold parseLine partsOf
    simp only [if_pos h1]
    rw [if_pos h2]
  refine ⟨hline, ?_⟩
  intro text hlen hall
  unfold parse
  rw [if_neg (by omega)]
  have hnone : ∀ d ∈ (pyLines text).drop 1, parseLine d = none :=
    fun d hd => hline d (hall d hd).1 (hall d hd).2
  rw [List.filterMap_eq_nil_iff.mpr hnone]
  rfl

/-- C6 witness: the header-plus-one-malformed-line input "h NL x y" parses
to zero rows, and the line "x y" itself is skipped. -/
theorem C6_malformed_lines_skipped_witness :
    parse (codes "h\nx y") = Except.ok [] ∧
    parseLine (codes "x y") = none :=
  ⟨C6_malformed_lines_skipped.2 (codes "h\nx y") (by decide) (by decide),
   C6_malformed_lines_skipped.1 (codes "x y") (by decide) (by decide)⟩

/-- C10: every row the extractor produces has nonempty surname, city,
category and language after trimming; only the given-name column can be
empty, and it is empty on a 4-fragment line whose first fragment is a
single token. -/
theorem C10_nonempty_fields :
    (∀ (text : List Nat) (rows : List Row),
      parse text = Except.ok rows →
      ∀ r ∈ rows,
        r.nom ≠ [] ∧ r.ville ≠ [] ∧ r.categorie ≠ [] ∧ r.langue ≠ []) ∧
    (∃ (text : List Nat) (rows : List Row),
      parse text = Except.ok rows ∧ ∃ r ∈ rows, r.prenom = []) := by
  constructor
  · intro text rows hok r hr
    obtain ⟨hrows, _⟩ := parse_ok_inv hok
    subst hrows
    obtain ⟨r0, hr0, hrr⟩ := List.mem_map.mp hr
    obtain ⟨d, _, hpl⟩ := List.mem_filterMap.mp hr0
    obtain ⟨⟨hn, hn2⟩, ⟨hv, hv2⟩, ⟨hc, hc2⟩, ⟨hl, hl2⟩⟩ :=
      parseLine_core_fields hpl
    rw [← hrr]
    refine ⟨?_, ?_, ?_, ?_⟩
    · show strip_chars r0.nom ≠ []
      rw [hn2]; exact hn
    · show strip_chars r0.ville ≠ []
      rw [hv2]; exact hv
    · show strip_chars r0.categorie ≠ []
      rw [hc2]; exact hc
    · show strip_chars r0.langue ≠ []
      rw [hl2]; exact hl
  · refine ⟨codes "h\nDoe\tParis\tGuide\tFrench",
      [⟨codes "Doe", [], codes "Paris", codes "Guide", codes "French"⟩],
      by rfl, ?_⟩
    exact ⟨_, List.mem_cons_self _ _, rfl⟩

/-- C10 witness: the nonemptiness statement applied to the concrete parse
of "h NL Doe TAB Paris TAB Guide TAB French". -/
theorem C10_nonempty_fields_witness :
    ∀ r ∈ [(⟨codes "Doe", [], codes "Paris", codes "Guide",
             codes "French"⟩ : Row)],
      r.nom ≠ [] ∧ r.ville ≠ [] ∧ r.categorie ≠ [] ∧ r.langue ≠ [] :=
  C10_nonempty_fields.1 (codes "h\nDoe\tParis\tGuide\tFrench") _ (by rfl)

-- ## Claim about the transition zero-row gates

/-- C1: in both the Refine and the Load transition the destination write is
the ok payload of the run, so an error result performs no write; whenever
the extracted (Refine) or deserialized (Load) row count is zero, the run
returns the corresponding fatal error, hence no silver object is written
and the staging table is not replaced. -/
theorem C1_zero_row_gates :
    (∀ (bronzeKeys : List (List Nat)) (fetch : List Nat → List Nat)
       (silverPre ts k : List Nat),
      pick_latest_bronze bronzeKeys tourismId = Except.ok k →
      parse (decode_bytes_safely (fetch k)) = Except.ok [] →
      refineRun bronzeKeys fetch tourismId silverPre ts =
        Except.error
          ("Parsed 0 rows. Parsing rules likely wrong for this file version.")) ∧
    (∀ (silverKeys : List (List Nat)) (fetch : List Nat → List Nat)
       (deser : List Nat → List Row) (dsid schema table k : List Nat),
      pick_latest_silver silverKeys dsid = Except.ok k →
      deser (fetch k) = [] →
      loadRun silverKeys fetch deser dsid schema table =
        Except.error ("Silver has 0 rows; refusing to load.")) := by
  constructor
  · intro keys fetch sp ts k hpick hparse
    unfold refineRun
    rw [hpick]
    simp only [Except.bind, bind, if_pos rfl, hparse, List.length_nil]
    rfl
  · intro keys fetch deser dsid schema table k hpick hdeser
    unfold loadRun
    rw [hpick]
    simp only [Except.bind, bind, hdeser, List.length_nil]
    rfl

/-- C1 witness: a bronze listing whose latest object decodes to a
header-plus-junk text parsing to zero rows makes Refine fail with the
zero-row error, and a silver object deserializing to zero rows makes Load
fail with its zero-row error. -/
theorem C1_zero_row_gates_witness :
    refineRun [codes "bronze/tourism_guides_directory__20250101T000000Z.csv"]
      (fun _ => [104, 10, 97, 98, 99]) tourismId (codes "silver/")
      (codes "20250102T000000Z") =
      Except.error
        ("Parsed 0 rows. Parsing rules likely wrong for this file version.") ∧
    loadRun [codes "silver/tourism_guides_directory__20250101T000000Z.parquet"]
      (fun _ => []) (fun _ => []) tourismId (codes "staging")
      (codes "tourism_guides_directory") =
      Except.error ("Silver has 0 rows; refusing to load.") :=
  ⟨C1_zero_row_gates.1 _ _ _ _
      (codes "bronze/tourism_guides_directory__20250101T000000Z.csv")
      (by rfl) (by rfl),
   C1_zero_row_gates.2 _ _ _ _ _ _
      (codes "silver/tourism_guides_directory__20250101T000000Z.parquet")
      (by rfl) (by rfl)⟩

-- ## Construction of well-formed tab-delimited inputs (for C4)

/-- Newline-joined lines (no trailing newline). -/
def joinNL : List (List Nat) → List Nat
  | [] => []
  | [l] => l
  | l :: rest => l ++ 10 :: joinNL rest

/-- A five-field tab-separated data line built from raw field values. -/
def mkLine (r : Row) : List Nat :=
  r.nom ++ 9 :: (r.prenom ++ 9 :: (r.ville ++ 9 :: (r.categorie ++ 9 :: r.langue)))

/-- The five fields with surrounding whitespace trimmed (Python strip). -/
def trimRowPy (r : Row) : Row :=
  ⟨pyStrip r.nom, pyStrip r.prenom, pyStrip r.ville,
   pyStrip r.categorie, pyStrip r.langue⟩

/-- A well-formed raw field value: visibly nonblank, tab-free, free of line
breaks, and free of BOM artifacts (no U+FEFF, no "ÿþ" pair). -/
def goodField (g : List Nat) : Prop :=
  (∃ c ∈ g, isPySpace c = false) ∧ 9 ∉ g ∧
  (∀ c ∈ g, isLineBreak c = false) ∧ 65279 ∉ g ∧
  isSubstr [255, 254] g = false

/-- All five fields of a raw row are well formed. -/
def goodRow (r : Row) : Prop :=
  goodField r.nom ∧ goodField r.prenom ∧ goodField r.ville ∧
  goodField r.categorie ∧ goodField r.langue

instance goodFieldDecidable (g : List Nat) : Decidable (goodField g) := by
  unfold goodField
  infer_instance

instance goodRowDecidable (r : Row) : Decidable (goodRow r) := by
  unfold goodRow
  infer_instance

-- ## Helper lemmas: splitlines over constructed texts

theorem splitlinesGo_cons_of_break {c : Nat} (cur rest : List Nat)
    (hb : isLineBreak c = true) (hc : c ≠ 13) :
    splitlinesGo cur (c :: rest) = cur.reverse :: splitlinesGo [] rest := by
  rw [splitlinesGo.eq_3 cur c rest (fun r' h13 _ => absurd h13 hc), if_pos hb]

theorem splitlinesGo_cons_of_plain {c : Nat} (cur rest : List Nat)
    (hb : isLineBreak c = false) :
    splitlinesGo cur (c :: rest) = splitlinesGo (c :: cur) rest := by
  have hc : c ≠ 13 := by
    intro he
    rw [he] at hb
    cases hb
  rw [splitlinesGo.eq_3 cur c rest (fun r' h13 _ => absurd h13 hc), if_neg (by simp [hb])]

theorem splitlinesGo_append_nl (l : List Nat) (cur rest : List Nat)
    (h : ∀ c ∈ l, isLineBreak c = false) :
    splitlinesGo cur (l ++ 10 :: rest) =
      (cur.reverse ++ l) :: splitlinesGo [] rest := by
  induction l generalizing cur with
  | nil =>
    rw [List.nil_append,
      splitlinesGo_cons_of_break cur rest (by rfl) (by omega)]
    simp
  | cons c l' ih =>
    have hc := h c (List.mem_cons_self c l')
    rw [List.cons_append, splitlinesGo_cons_of_plain (c := c) cur _ hc,
      ih (c :: cur) (fun d hd => h d (List.mem_cons_of_mem c hd))]
    simp

theorem splitlinesGo_no_break (l : List Nat) (cur : List Nat)
    (hne : l ≠ []) (h : ∀ c ∈ l, isLineBreak c = false) :
    splitlinesGo cur l = [cur.reverse ++ l] := by
  induction l generalizing cur with
  | nil => exact absurd rfl hne
  | cons c l' ih =>
    have hc := h c (List.mem_cons_self c l')
    rw [splitlinesGo_cons_of_plain (c := c) cur l' hc]
    cases l' with
    | nil =>
      rw [splitlinesGo.eq_1]
      simp
    | cons d l'' =>
      rw [ih (c :: cur) (by simp)
        (fun e he => h e (List.mem_cons_of_mem c he))]
      simp

theorem pySplitlines_joinNL (lines : List (List Nat)) (hne : lines ≠ [])
    (h : ∀ l ∈ lines, l ≠ [] ∧ ∀ c ∈ l, isLineBreak c = false) :
    pySplitlines (joinNL lines) = lines := by
  induction lines with
  | nil => exact absurd rfl hne
  | cons l rest ih =>
    cases rest with
    | nil =>
      have hl := h l (List.mem_cons_self l [])
      unfold pySplitlines
      have hj : joinNL [l] = l := rfl
      rw [hj, splitlinesGo_no_break l [] hl.1 hl.2]
      simp
    | cons l2 rest2 =>
      have hl := h l (List.mem_cons_self l _)
      have hj : joinNL (l :: l2 :: rest2) = l ++ 10 :: joinNL (l2 :: rest2) := rfl
      unfold pySplitlines
      rw [hj, splitlinesGo_append_nl l [] _ hl.2]
      have ih2 := ih (by simp)
        (fun x hx => h x (List.mem_cons_of_mem l hx))
      unfold pySplitlines at ih2
      rw [ih2]
      simp

theorem rstripLF_eq_self {l : List Nat} (h : 10 ∉ l) : rstripLF l = l := by
  unfold rstripLF
  cases hrev : l.reverse with
  | nil =>
    have : l = [] := by simpa using congrArg List.reverse hrev
    rw [this]
    rfl
  | cons c u =>
    have hc : c ≠ 10 := by
      intro he
      apply h
      rw [← he] at *
      exact List.mem_reverse.mp (hrev ▸ List.mem_cons_self c u)
    have hdec : (decide (c = 10)) = false := decide_eq_false hc
    rw [List.dropWhile_cons]
    simp only [hdec, Bool.false_eq_true, if_false]
    rw [← hrev]
    exact List.reverse_reverse l

-- ## Helper lemmas: tab splitting of constructed lines

theorem splitOn_append_sep {g rest : List Nat} (h : 9 ∉ g) :
    splitOn 9 (g ++ 9 :: rest) = g :: splitOn 9 rest := by
  induction g with
  | nil =>
    rw [List.nil_append]
    conv_lhs => unfold splitOn
    rw [if_pos rfl]
  | cons c g' ih =>
    have hc : c ≠ 9 := fun he => h (he ▸ List.mem_cons_self c g')
    have h' : 9 ∉ g' := fun hm => h (List.mem_cons_of_mem c hm)
    rw [List.cons_append]
    conv_lhs => unfold splitOn
    rw [if_neg hc, ih h']

theorem splitOn_no_sep {g : List Nat} (h : 9 ∉ g) : splitOn 9 g = [g] := by
  induction g with
  | nil => rfl
  | cons c g' ih =>
    have hc : c ≠ 9 := fun he => h (he ▸ List.mem_cons_self c g')
    have h' : 9 ∉ g' := fun hm => h (List.mem_cons_of_mem c hm)
    conv_lhs => unfold splitOn
    rw [if_neg hc, ih h']

theorem pyStrip_ne_nil_of_ex {g : List Nat}
    (h : ∃ c ∈ g, isPySpace c = false) : pyStrip g ≠ [] := by
  intro he
  obtain ⟨c, hc, hcf⟩ := h
  have hall := (pyStrip_eq_nil_iff g).mp he c hc
  rw [hall] at hcf
  cases hcf

theorem not_mem_dropL {p : Nat → Bool} {x : Nat} {l : List Nat} (h : x ∉ l) :
    x ∉ dropL p l :=
  fun hm => h (mem_of_mem_dropWhile hm)

theorem not_mem_dropR {p : Nat → Bool} {x : Nat} {l : List Nat} (h : x ∉ l) :
    x ∉ dropR p l :=
  fun hm => h (mem_of_mem_dropR hm)

theorem mkLine_no_feff {r : Row} (h : goodRow r) : 65279 ∉ mkLine r := by
  obtain ⟨⟨_, _, _, h1, _⟩, ⟨_, _, _, h2, _⟩, ⟨_, _, _, h3, _⟩,
    ⟨_, _, _, h4, _⟩, ⟨_, _, _, h5, _⟩⟩ := h
  unfold mkLine
  intro hm
  simp only [List.mem_append, List.mem_cons] at hm
  rcases hm with h' | h' | h' | h' | h' | h' | h' | h' | h'
  · exact h1 h'
  · omega
  · exact h2 h'
  · omega
  · exact h3 h'
  · omega
  · exact h4 h'
  · omega
  · exact h5 h'

theorem mkLine_no_break {r : Row} (h : goodRow r) :
    ∀ c ∈ mkLine r, isLineBreak c = false := by
  obtain ⟨⟨_, _, h1, _, _⟩, ⟨_, _, h2, _, _⟩, ⟨_, _, h3, _, _⟩,
    ⟨_, _, h4, _, _⟩, ⟨_, _, h5, _, _⟩⟩ := h
  intro c hm
  unfold mkLine at hm
  simp only [List.mem_append, List.mem_cons] at hm
  rcases hm with h' | h' | h' | h' | h' | h' | h' | h' | h'
  · exact h1 c h'
  · rw [h']; rfl
  · exact h2 c h'
  · rw [h']; rfl
  · exact h3 c h'
  · rw [h']; rfl
  · exact h4 c h'
  · rw [h']; rfl
  · exact h5 c h'

theorem mkLine_has_nonspace {r : Row} (h : goodRow r) :
    ∃ c ∈ mkLine r, isPySpace c = false := by
  obtain ⟨⟨⟨c, hc, hcf⟩, _, _, _, _⟩, _, _, _, _⟩ := h
  exact ⟨c, by unfold mkLine; simp only [List.mem_append]; left; exact hc, hcf⟩

theorem mkLine_ne_nil (r : Row) : mkLine r ≠ [] := by
  unfold mkLine
  simp

theorem mkLine_no_pair {r : Row} (h : goodRow r) :
    isSubstr [255, 254] (mkLine r) = false := by
  obtain ⟨⟨_, _, _, _, h1⟩, ⟨_, _, _, _, h2⟩, ⟨_, _, _, _, h3⟩,
    ⟨_, _, _, _, h4⟩, ⟨_, _, _, _, h5⟩⟩ := h
  unfold mkLine
  have s4 : isSubstr [255, 254] (r.categorie ++ 9 :: r.langue) = false :=
    pair_not_substr_append (by omega) (by omega) h4 h5
  have s3 : isSubstr [255, 254]
      (r.ville ++ 9 :: (r.categorie ++ 9 :: r.langue)) = false :=
    pair_not_substr_append (by omega) (by omega) h3 s4
  have s2 : isSubstr [255, 254]
      (r.prenom ++ 9 :: (r.ville ++ 9 :: (r.categorie ++ 9 :: r.langue))) = false :=
    pair_not_substr_append (by omega) (by omega) h2 s3
  exact pair_not_substr_append (by omega) (by omega) h1 s2

theorem isEmpty_false_of_ne_nil {α : Type} {l : List α} (h : l ≠ []) :
    l.isEmpty = false := by
  cases l with
  | nil => exact absurd rfl h
  | cons a t => rfl

theorem tabParts_mkLine {r : Row} (h : goodRow r) :
    tabParts (clean_bom (mkLine r)) =
      [pyStrip r.nom, pyStrip r.prenom, pyStrip r.ville,
       pyStrip r.categorie, pyStrip r.langue] := by
  obtain ⟨h1, h2, h3, h4, h5⟩ := h
  have hcb : clean_bom (mkLine r) = pyStrip (mkLine r) := by
    unfold clean_bom
    rw [removeAll_eq_self (mkLine_no_feff ⟨h1, h2, h3, h4, h5⟩),
        removePair_eq_self (mkLine_no_pair ⟨h1, h2, h3, h4, h5⟩)]
  rw [hcb]
  have hstepL : dropL isPySpace (mkLine r) =
      dropL isPySpace r.nom ++ 9 :: (r.prenom ++ 9 :: (r.ville ++ 9 ::
        (r.categorie ++ 9 :: r.langue))) := by
    unfold mkLine dropL
    exact dropWhile_append_ex _ h1.1
  have hassoc : dropL isPySpace r.nom ++ 9 :: (r.prenom ++ 9 :: (r.ville ++ 9 ::
      (r.categorie ++ 9 :: r.langue))) =
      (dropL isPySpace r.nom ++ 9 :: (r.prenom ++ 9 :: (r.ville ++ 9 ::
        (r.categorie ++ [9])))) ++ r.langue := by
    simp [List.append_assoc]
  have hstrip : pyStrip (mkLine r) =
      dropL isPySpace r.nom ++ 9 :: (r.prenom ++ 9 :: (r.ville ++ 9 ::
        (r.categorie ++ 9 :: dropR isPySpace r.langue))) := by
    unfold pyStrip
    rw [hstepL, hassoc, dropR_append_ex _ h5.1]
    simp [List.append_assoc]
  rw [hstrip]
  unfold tabParts
  rw [splitOn_append_sep (not_mem_dropL h1.2.1),
      splitOn_append_sep h2.2.1,
      splitOn_append_sep h3.2.1,
      splitOn_append_sep h4.2.1,
      splitOn_no_sep (not_mem_dropR h5.2.1)]
  simp only [List.map_cons, List.map_nil, pyStrip_dropL, pyStrip_dropR]
  simp only [List.filter_cons, List.filter_nil,
    isEmpty_false_of_ne_nil (pyStrip_ne_nil_of_ex h1.1),
    isEmpty_false_of_ne_nil (pyStrip_ne_nil_of_ex h2.1),
    isEmpty_false_of_ne_nil (pyStrip_ne_nil_of_ex h3.1),
    isEmpty_false_of_ne_nil (pyStrip_ne_nil_of_ex h4.1),
    isEmpty_false_of_ne_nil (pyStrip_ne_nil_of_ex h5.1),
    Bool.not_false, if_true]

theorem parseLine_mkLine {r : Row} (h : goodRow r) :
    parseLine (mkLine r) = some (trimRowPy r) := by
  have ht := tabParts_mkLine h
  simp only [parseLine, partsOf]
  rw [ht]
  norm_num
  unfold trimRowPy
  rfl

theorem filterMap_eq_map_of_some {α β : Type} {f : α → Option β} {g : α → β}
    {l : List α} (h : ∀ x ∈ l, f x = some (g x)) :
    l.filterMap f = l.map g := by
  induction l with
  | nil => rfl
  | cons a t ih =>
    rw [List.filterMap_cons, h a (List.mem_cons_self a t), List.map_cons,
      ih (fun x hx => h x (List.mem_cons_of_mem a hx))]

theorem map_eq_self_of_eq {α : Type} {f : α → α} {l : List α}
    (h : ∀ x ∈ l, f x = x) : l.map f = l := by
  induction l with
  | nil => rfl
  | cons a t ih =>
    rw [List.map_cons, h a (List.mem_cons_self a t),
      ih (fun x hx => h x (List.mem_cons_of_mem a hx))]

theorem stripRow_trimRowPy (r : Row) : stripRow (trimRowPy r) = trimRowPy r := by
  unfold stripRow trimRowPy
  simp [strip_chars_pyStrip]

-- ## Claim about the well-formed tab round trip

/-- C4: a text of one nonblank break-free header line followed by N data
lines, each with five nonblank, tab-free, break-free, BOM-free raw fields
joined by single tabs, parses to exactly N rows whose five columns are the
corresponding raw fields with surrounding whitespace trimmed. -/
theorem C4_tab_roundtrip (header : List Nat) (rowsF : List Row)
    (hrne : rowsF ≠ [])
    (hh1 : ∃ c ∈ header, isPySpace c = false)
    (hh2 : ∀ c ∈ header, isLineBreak c = false)
    (hr : ∀ r ∈ rowsF, goodRow r) :
    parse (joinNL (header :: rowsF.map mkLine)) =
      Except.ok (rowsF.map trimRowPy) ∧
    (rowsF.map trimRowPy).length = rowsF.length := by
  have hheader_ne : header ≠ [] := by
    obtain ⟨c, hc, _⟩ := hh1
    intro he
    rw [he] at hc
    simp at hc
  have hlines : pySplitlines (joinNL (header :: rowsF.map mkLine)) =
      header :: rowsF.map mkLine := by
    apply pySplitlines_joinNL _ (by simp)
    intro l hl
    rcases List.mem_cons.mp hl with he | hl'
    · rw [he]
      exact ⟨hheader_ne, hh2⟩
    · obtain ⟨r, hrm, hre⟩ := List.mem_map.mp hl'
      rw [← hre]
      exact ⟨mkLine_ne_nil r, mkLine_no_break (hr r hrm)⟩
  have hpy : pyLines (joinNL (header :: rowsF.map mkLine)) =
      header :: rowsF.map mkLine := by
    unfold pyLines
    rw [hlines, List.filter_eq_self.mpr ?side]
    case side =>
      intro a ha
      rcases List.mem_cons.mp ha with he | ha'
      · rw [he, isEmpty_false_of_ne_nil (pyStrip_ne_nil_of_ex hh1)]
        rfl
      · obtain ⟨r, hrm, hre⟩ := List.mem_map.mp ha'
        rw [← hre, isEmpty_false_of_ne_nil
          (pyStrip_ne_nil_of_ex (mkLine_has_nonspace (hr r hrm)))]
        rfl
    apply map_eq_self_of_eq
    intro x hx
    apply rstripLF_eq_self
    rcases List.mem_cons.mp hx with he | hx'
    · rw [he]
      intro hm
      have := hh2 10 hm
      cases this
    · obtain ⟨r, hrm, hre⟩ := List.mem_map.mp hx'
      rw [← hre]
      intro hm
      have := mkLine_no_break (hr r hrm) 10 hm
      cases this
  refine ⟨?_, by simp⟩
  simp only [parse]
  have hN : 1 ≤ rowsF.length := by
    cases hx : rowsF with
    | nil => exact absurd hx hrne
    | cons a t => simp
  rw [hpy, if_neg (by simp only [List.length_cons, List.length_map]; omega)]
  have hdrop : (header :: rowsF.map mkLine).drop 1 = rowsF.map mkLine := rfl
  have hfm : rowsF.filterMap (fun r => parseLine (mkLine r)) =
      rowsF.map trimRowPy :=
    filterMap_eq_map_of_some (fun r hrm => parseLine_mkLine (hr r hrm))
  rw [hdrop, List.filterMap_map]
  simp only [Function.comp_def]
  rw [hfm, List.map_map]
  simp only [Function.comp_def]
  have hmc : rowsF.map (fun r => stripRow (trimRowPy r)) = rowsF.map trimRowPy :=
    List.map_congr_left (fun r _ => stripRow_trimRowPy r)
  rw [hmc]

/-- C4 witness: a concrete header and one data row with an untrimmed
given-name field round-trips to the trimmed row. -/
theorem C4_tab_roundtrip_witness :
    parse (joinNL (codes "h1\th2\th3\th4\th5" ::
      [(⟨codes "Dupont", codes " Marie ", codes "Lyon", codes "Guide",
         codes "FR"⟩ : Row)].map mkLine)) =
      Except.ok ([(⟨codes "Dupont", codes " Marie ", codes "Lyon",
        codes "Guide", codes "FR"⟩ : Row)].map trimRowPy) ∧
    ([(⟨codes "Dupont", codes " Marie ", codes "Lyon", codes "Guide",
       codes "FR"⟩ : Row)].map trimRowPy).length =
      [(⟨codes "Dupont", codes " Marie ", codes "Lyon", codes "Guide",
         codes "FR"⟩ : Row)].length :=
  C4_tab_roundtrip (codes "h1\th2\th3\th4\th5") _
    (by decide) (by decide) (by decide) (by decide)
